import Mathlib

/-!
Verification development for the GreyEngine 2D/3D game engine
(`src/ecs/mod.rs`, `src/render/renderer2d.rs`, `src/render/camera.rs`,
`src/input/mod.rs`, `src/math/mod.rs`).

Embedding conventions:
* `Entity(u32)` is embedded as `Nat` (the claims never exercise u32 overflow,
  and `next_entity_id` only ever increments by one).
* `Vec<T>` is embedded as `List`, with `push` appending at the end.
  `Vec::swap_remove` and `iter().position` are modelled exactly.
* `HashMap<K, V>` is embedded as an association list whose keys are unique;
  insertion replaces the value of an existing key, removal filters the key
  out, lookup takes the (unique) matching entry.  `HashSet` is an insert-if-
  absent list.  Iteration order of a `HashMap` is unspecified in Rust and no
  claim depends on it.
* Component values are type-erased behind `Box<dyn Any>` in the source; a
  storage is parametrised only by `TypeId`, so we embed a component value as
  an opaque `Nat` payload and a `TypeId` as a `Nat`.
* `f32` scalars are embedded as elements of a `Field` (a
  `LinearOrderedField` where the code compares against zero); `f32::sqrt`,
  `f32::sin`, `f32::cos` become function parameters of the embedding, so the
  theorems hold for every interpretation of those intrinsics (in particular
  the real one).
-/

namespace GreyEngine

/-! ## Association-list model of `HashMap` (`std::collections::HashMap`) -/

/-- Lookup of the first (in a `HashMap`: unique) entry with the given key;
model of `HashMap::get`. -/
def alookup {α : Type} (k : Nat) : List (Nat × α) → Option α
  | [] => none
  | p :: rest => if p.1 = k then some p.2 else alookup k rest

/-- A component storage (`Storage<T>.data : HashMap<Entity, T>`): entity
keys mapped to opaque component payloads. -/
abbrev Storage := List (Nat × Nat)

/-- `Storage::insert` = `HashMap::insert`: replace the value of an existing
key, otherwise append a new entry. -/
def storageInsert (e c : Nat) (s : Storage) : Storage :=
  match alookup e s with
  | some _ => s.map (fun p => if p.1 = e then (e, c) else p)
  | none => s ++ [(e, c)]

/-- `Storage::remove` (`ComponentStorage::remove`) = `HashMap::remove`:
drop the entry with the given entity key. -/
def storageRemove (e : Nat) (s : Storage) : Storage :=
  s.filter (fun p => decide (¬ p.1 = e))

/-- `Storage::has` = `HashMap::contains_key`. -/
def storageHas (e : Nat) (s : Storage) : Bool :=
  (alookup e s).isSome

/-! ## The ECS `World` (`src/ecs/mod.rs`) -/

/-- `World`: entity allocator state plus the type-erased component storages
(`components : HashMap<TypeId, Box<dyn ComponentStorage>>`). -/
structure World where
  next_entity_id : Nat
  entities : List Nat
  dead_entities : List Nat
  components : List (Nat × Storage)
deriving DecidableEq, Repr

/-- `World::new`. -/
def World.new : World :=
  { next_entity_id := 0, entities := [], dead_entities := [], components := [] }

/-- `World::spawn`: pop a recycled id off the free-list, else take the fresh
counter value; push the id onto the live list.  (`Vec::pop` takes the most
recently pushed element; the model keeps the free-list with its top at the
head.) -/
def World.spawn (w : World) : Nat × World :=
  match w.dead_entities with
  | recycled :: rest =>
      (recycled, { w with dead_entities := rest, entities := w.entities ++ [recycled] })
  | [] =>
      (w.next_entity_id,
        { w with next_entity_id := w.next_entity_id + 1,
                 entities := w.entities ++ [w.next_entity_id] })

/-- `self.entities.iter().position(|&e| e == entity)`. -/
def listPos? (e : Nat) : List Nat → Option Nat
  | [] => none
  | x :: xs => if x = e then some 0 else (listPos? e xs).map (· + 1)

/-- `Vec::swap_remove`: overwrite index `i` with the last element, then drop
the last element. -/
def swapRemove (l : List Nat) (i : Nat) : List Nat :=
  match l.getLast? with
  | none => l
  | some a => (l.set i a).dropLast

/-- `World::despawn`: if the entity is found in the live list, swap-remove
it, push it on the free-list and purge it from every storage; otherwise do
nothing. -/
def World.despawn (w : World) (e : Nat) : World :=
  match listPos? e w.entities with
  | none => w
  | some i =>
      { w with entities := swapRemove w.entities i,
               dead_entities := e :: w.dead_entities,
               components := w.components.map (fun p => (p.1, storageRemove e p.2)) }

/-- `World::is_alive` = `self.entities.contains(&entity)`. -/
def World.is_alive (w : World) (e : Nat) : Bool :=
  decide (e ∈ w.entities)

/-- `World::add`: lazily create the storage for the type key `t`, then
insert the component for `e` into it (`HashMap` update at key `t`). -/
def World.add (w : World) (t e c : Nat) : World :=
  let comps :=
    match alookup t w.components with
    | some _ => w.components
    | none => w.components ++ [(t, ([] : Storage))]
  { w with components :=
      comps.map (fun p => if p.1 = t then (p.1, storageInsert e c p.2) else p) }

/-- `World::get`: `None` if the storage for `t` was never created, else the
storage lookup. -/
def World.get (w : World) (t e : Nat) : Option Nat :=
  match alookup t w.components with
  | none => none
  | some s => alookup e s

/-- `World::get_mut`: same presence behaviour as `get` (a mutable borrow of
the same entry). -/
def World.get_mut (w : World) (t e : Nat) : Option Nat :=
  match alookup t w.components with
  | none => none
  | some s => alookup e s

/-- `World::has`. -/
def World.has (w : World) (t e : Nat) : Bool :=
  match alookup t w.components with
  | none => false
  | some s => storageHas e s

/-- `World::remove`: if the storage for `t` exists, remove `e` from it
(`HashMap` update at key `t`); otherwise do nothing. -/
def World.remove (w : World) (t e : Nat) : World :=
  match alookup t w.components with
  | none => w
  | some _ =>
      { w with components :=
          w.components.map (fun p => if p.1 = t then (p.1, storageRemove e p.2) else p) }

/-- `World::query`: the entries of the storage for `t` (empty if the storage
was never created).  Read-only. -/
def World.query (w : World) (t : Nat) : Storage :=
  match alookup t w.components with
  | none => []
  | some s => s

/-- Reachable worlds: every state obtainable from `World::new` by a sequence
of the mutating operations (`get`/`has`/`query`/`is_alive` are read-only and
do not change the state). -/
inductive Reachable : World → Prop
  | new : Reachable World.new
  | spawn {w : World} : Reachable w → Reachable (w.spawn).2
  | despawn {w : World} (e : Nat) : Reachable w → Reachable (w.despawn e)
  | add {w : World} (t e c : Nat) : Reachable w → Reachable (w.add t e c)
  | remove {w : World} (t e : Nat) : Reachable w → Reachable (w.remove t e)

/-- Reachable worlds in which `add` is only ever applied to a then-live
entity (the usage pattern the spec describes: components are added to
freshly spawned entities). -/
inductive ReachableLive : World → Prop
  | new : ReachableLive World.new
  | spawn {w : World} : ReachableLive w → ReachableLive (w.spawn).2
  | despawn {w : World} (e : Nat) : ReachableLive w → ReachableLive (w.despawn e)
  | add {w : World} (t e c : Nat) : ReachableLive w → e ∈ w.entities →
      ReachableLive (w.add t e c)
  | remove {w : World} (t e : Nat) : ReachableLive w → ReachableLive (w.remove t e)

/-! ## Lemmas about the association-list `HashMap` model -/

theorem alookup_mem {α : Type} {k : Nat} {v : α} :
    ∀ {l : List (Nat × α)}, alookup k l = some v → (k, v) ∈ l := by
  intro l
  induction l with
  | nil => intro h; simp [alookup] at h
  | cons p rest ih =>
    obtain ⟨pk, pv⟩ := p
    intro h
    by_cases hp : pk = k
    · simp [alookup, hp] at h
      simp [hp, h]
    · simp [alookup, hp] at h
      exact List.mem_cons_of_mem _ (ih h)

theorem alookup_eq_none_iff {α : Type} {k : Nat} {l : List (Nat × α)} :
    alookup k l = none ↔ ∀ p ∈ l, p.1 ≠ k := by
  induction l with
  | nil => simp [alookup]
  | cons p rest ih =>
    rw [alookup]
    by_cases hp : p.1 = k <;> simp [hp, ih]

theorem alookup_map_val {α β : Type} {k : Nat} {f : α → β} :
    ∀ {l : List (Nat × α)},
      alookup k (l.map (fun p => (p.1, f p.2))) = (alookup k l).map f := by
  intro l
  induction l with
  | nil => simp [alookup]
  | cons p rest ih =>
    by_cases hp : p.1 = k <;> simp [alookup, hp, ih]

theorem alookup_update_self {α : Type} {t : Nat} {f : α → α} :
    ∀ {l : List (Nat × α)},
      alookup t (l.map (fun p => if p.1 = t then (p.1, f p.2) else p)) =
        (alookup t l).map f := by
  intro l
  induction l with
  | nil => simp [alookup]
  | cons p rest ih =>
    by_cases hp : p.1 = t <;> simp [alookup, hp, ih]

theorem alookup_update_ne {α : Type} {k t : Nat} (hk : k ≠ t) {f : α → α} :
    ∀ {l : List (Nat × α)},
      alookup k (l.map (fun p => if p.1 = t then (p.1, f p.2) else p)) =
        alookup k l := by
  intro l
  induction l with
  | nil => simp [alookup]
  | cons p rest ih =>
    obtain ⟨pk, pv⟩ := p
    by_cases hp : pk = t
    · have htk : t ≠ k := fun h => hk h.symm
      simp [alookup, hp, htk, ih]
    · by_cases hpk : pk = k <;> simp [alookup, hp, hpk, hk, ih]

theorem alookup_append_right {α : Type} {k : Nat} {v : α} :
    ∀ {l : List (Nat × α)}, alookup k l = none →
      alookup k (l ++ [(k, v)]) = some v := by
  intro l
  induction l with
  | nil => simp [alookup]
  | cons p rest ih =>
    obtain ⟨pk, pv⟩ := p
    intro h
    by_cases hp : pk = k
    · simp [alookup, hp] at h
    · simp [alookup, hp] at h ⊢
      exact ih h

theorem mem_storageRemove {e : Nat} {s : Storage} {q : Nat × Nat}
    (h : q ∈ storageRemove e s) : q ∈ s ∧ q.1 ≠ e := by
  unfold storageRemove at h
  have := List.mem_filter.1 h
  simpa using this

theorem storageRemove_alookup_self {e : Nat} {s : Storage} :
    alookup e (storageRemove e s) = none := by
  rw [alookup_eq_none_iff]
  intro p hp
  exact (mem_storageRemove hp).2

theorem storageRemove_of_absent {e : Nat} {s : Storage}
    (h : alookup e s = none) : storageRemove e s = s := by
  unfold storageRemove
  rw [List.filter_eq_self]
  intro p hp
  have := (alookup_eq_none_iff.1 h) p hp
  simpa using this

theorem alookup_of_mem_nodupKeys {α : Type} {k : Nat} {v : α}
    {l : List (Nat × α)} (hnd : (l.map Prod.fst).Nodup) (hm : (k, v) ∈ l) :
    alookup k l = some v := by
  induction l with
  | nil => simp at hm
  | cons p rest ih =>
    simp only [List.map_cons, List.nodup_cons] at hnd
    rcases List.mem_cons.1 hm with h | h
    · rw [← h]; simp [alookup]
    · have hpk : p.1 ≠ k := by
        intro he
        exact hnd.1 (by
          rw [he]
          exact List.mem_map.2 ⟨(k, v), h, rfl⟩)
      rw [alookup]
      simp [hpk]
      exact ih hnd.2 h

/-! ## Lemmas about `listPos?` (`iter().position`) and `swapRemove`
(`Vec::swap_remove`) -/

theorem listPos?_eq_none_iff {e : Nat} :
    ∀ {l : List Nat}, listPos? e l = none ↔ e ∉ l := by
  intro l
  induction l with
  | nil => simp [listPos?]
  | cons x xs ih =>
    rw [listPos?]
    by_cases hx : x = e
    · simp [hx]
    · have hex : ¬ e = x := fun h => hx h.symm
      cases hpos : listPos? e xs with
      | none =>
        have hnot : e ∉ xs := ih.1 hpos
        simp [hx, hex, hnot]
      | some j =>
        have hmem : e ∈ xs := by
          by_contra hc
          rw [← ih, hpos] at hc
          simp at hc
        simp [hx, hex, hmem, hpos]

theorem listPos?_some {e : Nat} :
    ∀ {l : List Nat} {i : Nat}, listPos? e l = some i →
      ∃ h : i < l.length, l[i] = e := by
  intro l
  induction l with
  | nil => intro i h; simp [listPos?] at h
  | cons x xs ih =>
    intro i h
    rw [listPos?] at h
    by_cases hx : x = e
    · simp [hx] at h
      subst h
      exact ⟨by simp, hx⟩
    · simp [hx] at h
      obtain ⟨j, hj, rfl⟩ := h
      obtain ⟨hlt, hget⟩ := ih hj
      exact ⟨by simpa using Nat.succ_lt_succ hlt, by simpa using hget⟩

theorem mem_of_mem_swapRemove {l : List Nat} {i : Nat} {x : Nat}
    (h : x ∈ swapRemove l i) : x ∈ l := by
  unfold swapRemove at h
  cases hl : l.getLast? with
  | none => rw [hl] at h; exact h
  | some a =>
    rw [hl] at h
    have ha : a ∈ l := by
      rw [List.getLast?_eq_getElem?] at hl
      obtain ⟨hlt, hget⟩ := List.getElem?_eq_some_iff.1 hl
      exact hget ▸ List.getElem_mem hlt
    have := List.dropLast_subset _ h
    rcases List.mem_or_eq_of_mem_set this with h' | h'
    · exact h'
    · exact h' ▸ ha

theorem not_mem_swapRemove {l : List Nat} {i : Nat} {e : Nat}
    (hnd : l.Nodup) (hi : i < l.length) (hget : l[i] = e) :
    e ∉ swapRemove l i := by
  intro hmem
  unfold swapRemove at hmem
  have hne : l ≠ [] := List.ne_nil_of_length_pos (by omega)
  cases hl : l.getLast? with
  | none => exact hne (List.getLast?_eq_none_iff.1 hl)
  | some a =>
    rw [hl] at hmem
    rw [List.getLast?_eq_getElem?] at hl
    obtain ⟨hlast, hlastget⟩ := List.getElem?_eq_some_iff.1 hl
    obtain ⟨j, hj, hjget⟩ := List.mem_iff_getElem.1 hmem
    have hjlen : j < l.length - 1 := by
      have := hj
      simp [List.length_dropLast, List.length_set] at this
      exact this
    have hjlt : j < (l.set i a).length := by
      rw [List.length_set]
      omega
    have hjset : (l.set i a).dropLast[j] = (l.set i a)[j] :=
      List.getElem_dropLast _ _ _
    by_cases hij : i = j
    · subst hij
      rw [hjset, List.getElem_set_self] at hjget
      have : (l.length - 1 : Nat) = i :=
        (List.Nodup.getElem_inj_iff hnd).1 (by rw [hlastget, hjget, hget])
      omega
    · rw [hjset, List.getElem_set_ne hij] at hjget
      have : j = i := (List.Nodup.getElem_inj_iff hnd).1 (by rw [hjget, hget])
      exact hij this.symm

theorem mem_swapRemove_of_ne {l : List Nat} {i : Nat} {e x : Nat}
    (hi : i < l.length) (hget : l[i] = e) (hx : x ∈ l) (hne : x ≠ e) :
    x ∈ swapRemove l i := by
  unfold swapRemove
  have hlne : l ≠ [] := List.ne_nil_of_length_pos (by omega)
  cases hl : l.getLast? with
  | none => exact absurd (List.getLast?_eq_none_iff.1 hl) hlne
  | some a =>
    rw [List.getLast?_eq_getElem?] at hl
    obtain ⟨hlast, hlastget⟩ := List.getElem?_eq_some_iff.1 hl
    obtain ⟨j, hj, hjget⟩ := List.mem_iff_getElem.1 hx
    have hji : j ≠ i := by
      intro h
      subst h
      exact hne (by rw [← hjget, hget])
    rw [List.mem_iff_getElem]
    by_cases hjlast : j = l.length - 1
    · -- `x` is the last element; it survives at index `i` (which is not last).
      have hilast : i < l.length - 1 := by
        rcases Nat.lt_or_ge i (l.length - 1) with h | h
        · exact h
        · exfalso; apply hji; omega
      refine ⟨i, ?_, ?_⟩
      · simpa [List.length_dropLast, List.length_set] using hilast
      · rw [List.getElem_dropLast, List.getElem_set_self]
        subst hjlast
        rw [← hlastget]
        exact hjget
    · have hjlt : j < l.length - 1 := by omega
      refine ⟨j, ?_, ?_⟩
      · simpa [List.length_dropLast, List.length_set] using hjlt
      · rw [List.getElem_dropLast, List.getElem_set_ne (fun h => hji h.symm)]
        exact hjget

theorem nodup_swapRemove {l : List Nat} (i : Nat) (hnd : l.Nodup) :
    (swapRemove l i).Nodup := by
  unfold swapRemove
  cases hl : l.getLast? with
  | none => exact hnd
  | some a =>
    rw [List.getLast?_eq_getElem?] at hl
    obtain ⟨hlast, hlastget⟩ := List.getElem?_eq_some_iff.1 hl
    rw [List.nodup_iff_injective_get]
    rintro ⟨j, hj⟩ ⟨k, hk⟩ hjk
    simp only [List.get_eq_getElem] at hjk
    simp only [Fin.mk.injEq]
    have hjlen : j < l.length - 1 := by
      simpa [List.length_dropLast, List.length_set] using hj
    have hklen : k < l.length - 1 := by
      simpa [List.length_dropLast, List.length_set] using hk
    rw [List.getElem_dropLast, List.getElem_dropLast] at hjk
    by_cases hji : j = i <;> by_cases hki : k = i
    · omega
    · exfalso
      subst hji
      rw [List.getElem_set_self, List.getElem_set_ne (fun h => hki h.symm)] at hjk
      have : (l.length - 1 : Nat) = k :=
        (List.Nodup.getElem_inj_iff hnd).1 (by rw [hlastget, hjk])
      omega
    · exfalso
      subst hki
      rw [List.getElem_set_ne (fun h => hji h.symm), List.getElem_set_self] at hjk
      have : j = (l.length - 1 : Nat) :=
        (List.Nodup.getElem_inj_iff hnd).1 (by rw [hjk, hlastget])
      omega
    · rw [List.getElem_set_ne (fun h => hji h.symm),
        List.getElem_set_ne (fun h => hki h.symm)] at hjk
      exact (List.Nodup.getElem_inj_iff hnd).1 hjk

/-! ## The `World` well-formedness invariant -/

theorem keys_map_update {α : Type} {t : Nat} {f : α → α} :
    ∀ {l : List (Nat × α)},
      (l.map (fun p => if p.1 = t then (p.1, f p.2) else p)).map Prod.fst =
        l.map Prod.fst := by
  intro l
  induction l with
  | nil => rfl
  | cons p rest ih => by_cases hp : p.1 = t <;> simp [hp, ih]

theorem keys_map_val {α β : Type} {f : α → β} :
    ∀ {l : List (Nat × α)},
      (l.map (fun p => (p.1, f p.2))).map Prod.fst = l.map Prod.fst := by
  intro l
  induction l with
  | nil => rfl
  | cons p rest ih => simp [ih]

/-- Representation invariant of every world the program can build: the live
list and the free-list hold no duplicates and are disjoint, every seen id
is below the fresh-id counter, and the storage map has unique type keys
(as a `HashMap` must). -/
def World.Wf (w : World) : Prop :=
  w.entities.Nodup ∧ w.dead_entities.Nodup ∧
  (∀ e ∈ w.entities, e ∉ w.dead_entities) ∧
  (∀ e ∈ w.entities, e < w.next_entity_id) ∧
  (∀ e ∈ w.dead_entities, e < w.next_entity_id) ∧
  (w.components.map Prod.fst).Nodup

theorem wf_new : World.Wf World.new := by
  refine ⟨?_, ?_, ?_, ?_, ?_, ?_⟩ <;> simp [World.new]

theorem spawn_eq_of_dead_nil {w : World} (hd : w.dead_entities = []) :
    w.spawn = (w.next_entity_id,
      { w with next_entity_id := w.next_entity_id + 1,
               entities := w.entities ++ [w.next_entity_id] }) := by
  unfold World.spawn
  rw [hd]

theorem spawn_eq_of_dead_cons {w : World} {d : Nat} {rest : List Nat}
    (hd : w.dead_entities = d :: rest) :
    w.spawn = (d, { w with dead_entities := rest, entities := w.entities ++ [d] }) := by
  unfold World.spawn
  rw [hd]

theorem wf_spawn {w : World} (h : w.Wf) : (w.spawn).2.Wf := by
  obtain ⟨h1, h2, h3, h4, h5, h6⟩ := h
  cases hd : w.dead_entities with
  | nil =>
    rw [spawn_eq_of_dead_nil hd]
    refine ⟨?_, ?_, ?_, ?_, ?_, ?_⟩ <;> dsimp only
    · simp [List.nodup_append, h1]
      intro hmem
      exact absurd (h4 _ hmem) (by omega)
    · rw [hd]
      exact List.nodup_nil
    · intro e he
      rw [hd]
      simp
    · intro e he
      rcases List.mem_append.1 he with he | he
      · exact Nat.lt_succ_of_lt (h4 _ he)
      · simp at he
        omega
    · intro e he
      rw [hd] at he
      simp at he
    · exact h6
  | cons d rest =>
    rw [spawn_eq_of_dead_cons hd]
    rw [hd] at h2 h3 h5
    have hdnotin : d ∉ w.entities := by
      intro hmem
      exact (h3 _ hmem) (List.mem_cons_self d rest)
    refine ⟨?_, ?_, ?_, ?_, ?_, ?_⟩ <;> dsimp only
    · simp [List.nodup_append, h1, hdnotin]
    · exact (List.nodup_cons.1 h2).2
    · intro e he
      rcases List.mem_append.1 he with he | he
      · intro hr
        exact (h3 _ he) (List.mem_cons_of_mem _ hr)
      · simp at he
        subst he
        exact (List.nodup_cons.1 h2).1
    · intro e he
      rcases List.mem_append.1 he with he | he
      · exact h4 _ he
      · simp at he
        subst he
        exact h5 _ (List.mem_cons_self _ _)
    · intro e he
      exact h5 _ (List.mem_cons_of_mem _ he)
    · exact h6

theorem wf_despawn {w : World} (e : Nat) (h : w.Wf) : (w.despawn e).Wf := by
  obtain ⟨h1, h2, h3, h4, h5, h6⟩ := h
  unfold World.despawn
  cases hpos : listPos? e w.entities with
  | none => exact ⟨h1, h2, h3, h4, h5, h6⟩
  | some i =>
    obtain ⟨hi, hget⟩ := listPos?_some hpos
    have hmem : e ∈ w.entities := hget ▸ List.getElem_mem hi
    refine ⟨?_, ?_, ?_, ?_, ?_, ?_⟩
    · exact nodup_swapRemove i h1
    · exact List.nodup_cons.2 ⟨h3 _ hmem, h2⟩
    · intro x hx
      have hxe : x ∈ w.entities := mem_of_mem_swapRemove hx
      have hxne : x ≠ e := by
        intro hxeq
        subst hxeq
        exact not_mem_swapRemove h1 hi hget hx
      intro hc
      rcases List.mem_cons.1 hc with hc | hc
      · exact hxne hc
      · exact (h3 _ hxe) hc
    · intro x hx
      exact h4 _ (mem_of_mem_swapRemove hx)
    · intro x hx
      rcases List.mem_cons.1 hx with hc | hc
      · subst hc
        exact h4 _ hmem
      · exact h5 _ hc
    · rw [keys_map_val]
      exact h6

theorem wf_add {w : World} (t e c : Nat) (h : w.Wf) : (w.add t e c).Wf := by
  obtain ⟨h1, h2, h3, h4, h5, h6⟩ := h
  unfold World.add
  refine ⟨h1, h2, h3, h4, h5, ?_⟩
  cases hc : alookup t w.components with
  | some s =>
    simp only [hc]
    rw [keys_map_update]
    exact h6
  | none =>
    simp only [hc]
    rw [keys_map_update]
    have ht : t ∉ w.components.map Prod.fst := by
      intro hmem
      obtain ⟨p, hp, hpt⟩ := List.mem_map.1 hmem
      exact (alookup_eq_none_iff.1 hc p hp) hpt
    simp [List.nodup_append, h6, ht]

theorem wf_remove {w : World} (t e : Nat) (h : w.Wf) : (w.remove t e).Wf := by
  obtain ⟨h1, h2, h3, h4, h5, h6⟩ := h
  unfold World.remove
  cases hc : alookup t w.components with
  | none => exact ⟨h1, h2, h3, h4, h5, h6⟩
  | some s =>
    refine ⟨h1, h2, h3, h4, h5, ?_⟩
    rw [keys_map_update]
    exact h6

theorem Reachable.wf {w : World} (h : Reachable w) : w.Wf := by
  induction h with
  | new => exact wf_new
  | spawn _ ih => exact wf_spawn ih
  | despawn e _ ih => exact wf_despawn e ih
  | add t e c _ ih => exact wf_add t e c ih
  | remove t e _ ih => exact wf_remove t e ih

theorem ReachableLive.toReachable {w : World} (h : ReachableLive w) : Reachable w := by
  induction h with
  | new => exact Reachable.new
  | spawn _ ih => exact Reachable.spawn ih
  | despawn e _ ih => exact Reachable.despawn e ih
  | add t e c _ _ ih => exact Reachable.add t e c ih
  | remove t e _ ih => exact Reachable.remove t e ih

/-! ## The storage-purity invariant (claim C1) -/

theorem spawn_components {w : World} : (w.spawn).2.components = w.components := by
  cases hd : w.dead_entities with
  | nil => rw [spawn_eq_of_dead_nil hd]
  | cons d rest => rw [spawn_eq_of_dead_cons hd]

theorem mem_entities_spawn {w : World} {x : Nat} (h : x ∈ w.entities) :
    x ∈ (w.spawn).2.entities := by
  cases hd : w.dead_entities with
  | nil =>
    rw [spawn_eq_of_dead_nil hd]
    exact List.mem_append_left _ h
  | cons d rest =>
    rw [spawn_eq_of_dead_cons hd]
    exact List.mem_append_left _ h

theorem mem_storageInsert {e c : Nat} {s : Storage} {q : Nat × Nat}
    (h : q ∈ storageInsert e c s) : q.1 = e ∨ q ∈ s := by
  unfold storageInsert at h
  cases hc : alookup e s with
  | some v =>
    rw [hc] at h
    obtain ⟨p0, hp0, hq⟩ := List.mem_map.1 h
    by_cases hp : p0.1 = e
    · simp [hp] at hq
      left
      rw [← hq]
    · simp [hp] at hq
      right
      exact hq ▸ hp0
  | none =>
    rw [hc] at h
    rcases List.mem_append.1 h with h | h
    · right
      exact h
    · left
      simp at h
      rw [h]

theorem despawn_eq_of_none {w : World} {e : Nat}
    (h : listPos? e w.entities = none) : w.despawn e = w := by
  unfold World.despawn
  rw [h]

theorem despawn_eq_of_some {w : World} {e : Nat} {i : Nat}
    (h : listPos? e w.entities = some i) :
    w.despawn e =
      { w with entities := swapRemove w.entities i,
               dead_entities := e :: w.dead_entities,
               components := w.components.map (fun p => (p.1, storageRemove e p.2)) } := by
  unfold World.despawn
  rw [h]

/-- Every entity appearing as a key in some storage is in the live list. -/
def World.StorageInv (w : World) : Prop :=
  ∀ p ∈ w.components, ∀ q ∈ p.2, q.1 ∈ w.entities

theorem ReachableLive.storageInv {w : World} (h : ReachableLive w) : w.StorageInv := by
  induction h with
  | new =>
    intro p hp
    simp [World.new] at hp
  | spawn _ ih =>
    intro p hp q hq
    rw [spawn_components] at hp
    exact mem_entities_spawn (ih p hp q hq)
  | despawn e _ ih =>
    rename_i w _
    intro p hp q hq
    cases hpos : listPos? e w.entities with
    | none =>
      rw [despawn_eq_of_none hpos] at hp ⊢
      exact ih p hp q hq
    | some i =>
      rw [despawn_eq_of_some hpos] at hp ⊢
      dsimp only at hp ⊢
      obtain ⟨p0, hp0, hpeq⟩ := List.mem_map.1 hp
      rw [← hpeq] at hq
      dsimp only at hq
      obtain ⟨hqmem, hqne⟩ := mem_storageRemove hq
      obtain ⟨hi, hget⟩ := listPos?_some hpos
      exact mem_swapRemove_of_ne hi hget (ih p0 hp0 q hqmem) hqne
  | add t e c _ hlive ih =>
    rename_i w _
    intro p hp q hq
    unfold World.add at hp
    dsimp only at hp
    have hcases : ∀ p0, p0 ∈ w.components ∨ p0 = (t, ([] : Storage)) →
        ∀ q0 ∈ (if p0.1 = t then (p0.1, storageInsert e c p0.2) else p0).2,
          q0.1 ∈ (w.add t e c).entities := by
      intro p0 hp0 q0 hq0
      have hent : (w.add t e c).entities = w.entities := rfl
      rw [hent]
      by_cases hpt : p0.1 = t
      · simp only [hpt, if_pos rfl] at hq0
        rcases mem_storageInsert hq0 with hqe | hqs
        · rw [hqe]
          exact hlive
        · rcases hp0 with hp0 | hp0
          · exact ih p0 hp0 q0 hqs
          · rw [hp0] at hqs
            simp at hqs
      · simp only [hpt, if_neg hpt] at hq0
        rcases hp0 with hp0 | hp0
        · exact ih p0 hp0 q0 hq0
        · rw [hp0] at hq0
          simp at hq0
    cases hc : alookup t w.components with
    | some s =>
      rw [hc] at hp
      obtain ⟨p0, hp0, hpeq⟩ := List.mem_map.1 hp
      rw [← hpeq] at hq
      exact hcases p0 (Or.inl hp0) q hq
    | none =>
      rw [hc] at hp
      obtain ⟨p0, hp0, hpeq⟩ := List.mem_map.1 hp
      rw [← hpeq] at hq
      rcases List.mem_append.1 hp0 with hp0 | hp0
      · exact hcases p0 (Or.inl hp0) q hq
      · simp at hp0
        exact hcases p0 (Or.inr hp0) q hq
  | remove t e _ ih =>
    rename_i w _
    intro p hp q hq
    have hent : (w.remove t e).entities = w.entities := by
      unfold World.remove
      cases alookup t w.components <;> rfl
    rw [hent]
    unfold World.remove at hp
    cases hc : alookup t w.components with
    | none =>
      rw [hc] at hp
      exact ih p hp q hq
    | some s =>
      rw [hc] at hp
      dsimp only at hp
      obtain ⟨p0, hp0, hpeq⟩ := List.mem_map.1 hp
      rw [← hpeq] at hq
      by_cases hpt : p0.1 = t
      · simp only [hpt, if_pos rfl] at hq
        exact ih p0 hp0 q (mem_storageRemove hq).1
      · simp only [if_neg hpt] at hq
        exact ih p0 hp0 q hq

/-! ## Concrete worlds used in counterexamples and witnesses -/

/-- spawn 0 ; despawn 0 ; add component (type 0, payload 7) to the dead
entity 0 — `World::add` does not check liveness. -/
def wStale : World := ((World.new.spawn).2.despawn 0).add 0 0 7

/-- spawn 0 ; add component to the live entity 0 ; despawn 0. -/
def wPurged : World := ((World.new.spawn).2.add 0 0 7).despawn 0

/-- spawn 0 ; despawn 0 — free-list holds `[0]`. -/
def wRecycle : World := (World.new.spawn).2.despawn 0

/-- spawn 0 ; add component (type 0, payload 7) to the live entity 0. -/
def wComp : World := (World.new.spawn).2.add 0 0 7

/-! ## Claims C1, C2, C3 -/

/-- C1 (amended): in every world reachable by spawn/despawn/add/remove where
`add` is only applied to live entities, an entity that is not in the live
set is not a key of any component storage: `has` is false and `get` is
`None` for every component type. -/
theorem not_alive_absent_from_all_storages (w : World) (hw : ReachableLive w)
    (e : Nat) (he : e ∉ w.entities) (t : Nat) :
    w.has t e = false ∧ w.get t e = none := by
  have hinv := hw.storageInv
  have key : ∀ s, alookup t w.components = some s → alookup e s = none := by
    intro s hc
    cases hcs : alookup e s with
    | none => rfl
    | some c =>
      exfalso
      exact he (hinv (t, s) (alookup_mem hc) (e, c) (alookup_mem hcs))
  constructor
  · unfold World.has storageHas
    cases hc : alookup t w.components with
    | none => rfl
    | some s => simp [key s hc]
  · unfold World.get
    cases hc : alookup t w.components with
    | none => rfl
    | some s => simp [key s hc]

/-- C1 counterexample: under arbitrary operation sequences the claimed
invariant fails.  After spawn ; despawn 0 ; add(type 0, entity 0, payload 7)
— a despawn of entity 0 has completed — entity 0 is not in the live set yet
it is a key of storage 0, because `World::add` does not re-check
liveness. -/
theorem stale_key_reachable :
    Reachable wStale ∧ wStale.is_alive 0 = false ∧ wStale.has 0 0 = true :=
  ⟨Reachable.add 0 0 7 (Reachable.despawn 0 (Reachable.spawn Reachable.new)),
    by decide, by decide⟩

/-- C1 witness: spawn ; add to the live entity 0 ; despawn 0 — afterwards
entity 0 is absent from every storage. -/
theorem not_alive_absent_from_all_storages_witness :
    wPurged.has 0 0 = false ∧ wPurged.get 0 0 = none := by
  have hr : ReachableLive wPurged :=
    ReachableLive.despawn 0
      (ReachableLive.add 0 0 7 (ReachableLive.spawn ReachableLive.new) (by decide))
  exact not_alive_absent_from_all_storages wPurged hr 0 (by decide) 0

/-- C2 (amended): in every reachable world, if `e` was alive then
immediately after `despawn e` the entity is gone from the live list, is on
the free-list, and `get`/`has` are absent/false for every component type;
if `e` was not alive, `despawn e` leaves the world entirely unchanged
(idempotent no-op). -/
theorem despawn_spec (w : World) (hw : Reachable w) (e : Nat) :
    (e ∈ w.entities →
      e ∉ (w.despawn e).entities ∧
      e ∈ (w.despawn e).dead_entities ∧
      ∀ t, (w.despawn e).get t e = none ∧ (w.despawn e).has t e = false) ∧
    (e ∉ w.entities → w.despawn e = w) := by
  constructor
  · intro he
    cases hpos : listPos? e w.entities with
    | none => exact absurd he (listPos?_eq_none_iff.1 hpos)
    | some i =>
      obtain ⟨hi, hget⟩ := listPos?_some hpos
      have h1 := (hw.wf).1
      rw [despawn_eq_of_some hpos]
      refine ⟨not_mem_swapRemove h1 hi hget, List.mem_cons_self _ _, ?_⟩
      intro t
      constructor
      · unfold World.get
        dsimp only
        rw [alookup_map_val]
        cases hc : alookup t w.components with
        | none => simp
        | some s => simp [storageRemove_alookup_self]
      · unfold World.has storageHas
        dsimp only
        rw [alookup_map_val]
        cases hc : alookup t w.components with
        | none => simp
        | some s => simp [storageRemove_alookup_self]
  · intro he
    exact despawn_eq_of_none (listPos?_eq_none_iff.2 he)

/-- C2 counterexample: for a dead entity that still owns a (stale) component
— reachable because `add` does not check liveness — `despawn` is a no-op,
so `get`/`has` do not become absent/false for the previously attached type,
refuting the claim's unconditional first clause. -/
theorem despawn_dead_keeps_stale_component :
    Reachable wStale ∧ wStale.is_alive 0 = false ∧ wStale.has 0 0 = true ∧
    (wStale.despawn 0).get 0 0 = some 7 ∧ (wStale.despawn 0).has 0 0 = true :=
  ⟨Reachable.add 0 0 7 (Reachable.despawn 0 (Reachable.spawn Reachable.new)),
    by decide, by decide, by decide, by decide⟩

/-- C2 witness: despawning the live entity 0 of `wComp` removes it and its
component; despawning the dead id 1 changes nothing. -/
theorem despawn_spec_witness :
    0 ∉ (wComp.despawn 0).entities ∧ (wComp.despawn 0).get 0 0 = none ∧
    wComp.despawn 1 = wComp := by
  have hr : Reachable wComp := Reachable.add 0 0 7 (Reachable.spawn Reachable.new)
  have h0 := despawn_spec wComp hr 0
  have h1 := despawn_spec wComp hr 1
  exact ⟨(h0.1 (by decide)).1, ((h0.1 (by decide)).2.2 0).1, h1.2 (by decide)⟩

/-- C3: in every reachable world, `spawn` returns the top of the free-list
(the most recently despawned id still on it) when the free-list is
non-empty, otherwise the fresh counter value; the returned id is not equal
to any currently-live id, and the live list is duplicate-free both before
and after the spawn. -/
theorem spawn_spec (w : World) (hw : Reachable w) :
    (∀ d rest, w.dead_entities = d :: rest → (w.spawn).1 = d) ∧
    (w.dead_entities = [] → (w.spawn).1 = w.next_entity_id) ∧
    (w.spawn).1 ∉ w.entities ∧
    w.entities.Nodup ∧
    (w.spawn).2.entities.Nodup := by
  obtain ⟨h1, h2, h3, h4, h5, h6⟩ := hw.wf
  refine ⟨?_, ?_, ?_, h1, (wf_spawn hw.wf).1⟩
  · intro d rest hd
    rw [spawn_eq_of_dead_cons hd]
  · intro hd
    rw [spawn_eq_of_dead_nil hd]
  · cases hd : w.dead_entities with
    | nil =>
      rw [spawn_eq_of_dead_nil hd]
      intro hmem
      exact absurd (h4 _ hmem) (by omega)
    | cons d rest =>
      rw [spawn_eq_of_dead_cons hd]
      intro hmem
      exact (h3 _ hmem) (by rw [hd]; exact List.mem_cons_self _ _)

/-- C3 witness: after spawn ; despawn 0 the free-list is `[0]`, and the next
spawn returns the recycled id 0, which is not among the (empty) live
list. -/
theorem spawn_spec_witness :
    (wRecycle.spawn).1 = 0 ∧ (wRecycle.spawn).1 ∉ wRecycle.entities ∧
    (wRecycle.spawn).2.entities.Nodup := by
  have hr : Reachable wRecycle := Reachable.despawn 0 (Reachable.spawn Reachable.new)
  have h := spawn_spec wRecycle hr
  exact ⟨h.1 0 [] (by decide), h.2.2.1, h.2.2.2.2⟩

/-! ## Math primitives (`src/math/mod.rs`)

`f32` is embedded as a `LinearOrderedField` scalar `K`; `f32::sqrt`,
`f32::sin` and `f32::cos` are passed as function parameters. -/

/-- `Vec2`. -/
structure Vec2 (K : Type) where
  x : K
  y : K
deriving DecidableEq

instance {K : Type} [Add K] : Add (Vec2 K) :=
  ⟨fun a b => ⟨a.x + b.x, a.y + b.y⟩⟩

instance {K : Type} [Sub K] : Sub (Vec2 K) :=
  ⟨fun a b => ⟨a.x - b.x, a.y - b.y⟩⟩

instance {K : Type} [Mul K] : HMul (Vec2 K) K (Vec2 K) :=
  ⟨fun v s => ⟨v.x * s, v.y * s⟩⟩

@[simp] theorem Vec2.add_def {K : Type} [Add K] (a b : Vec2 K) :
    a + b = ⟨a.x + b.x, a.y + b.y⟩ := rfl

@[simp] theorem Vec2.sub_def {K : Type} [Sub K] (a b : Vec2 K) :
    a - b = ⟨a.x - b.x, a.y - b.y⟩ := rfl

@[simp] theorem Vec2.smul_def {K : Type} [Mul K] (v : Vec2 K) (s : K) :
    v * s = ⟨v.x * s, v.y * s⟩ := rfl

/-- `Vec2::ZERO`. -/
def Vec2.ZERO {K : Type} [Zero K] : Vec2 K := ⟨0, 0⟩

/-- `Vec2::length_squared`. -/
def Vec2.length_squared {K : Type} [Mul K] [Add K] (v : Vec2 K) : K :=
  v.x * v.x + v.y * v.y

/-- `Vec2::length` = `(x*x + y*y).sqrt()`. -/
def Vec2.length {K : Type} [Mul K] [Add K] (sqrtK : K → K) (v : Vec2 K) : K :=
  sqrtK (v.x * v.x + v.y * v.y)

/-- `Vec2::normalize`: divide by the length when it is positive, else the
zero vector. -/
def Vec2.normalize {K : Type} [LinearOrderedField K] (sqrtK : K → K)
    (v : Vec2 K) : Vec2 K :=
  let len := Vec2.length sqrtK v
  if 0 < len then ⟨v.x / len, v.y / len⟩ else Vec2.ZERO

/-- `Color` (rgba). -/
structure Color (K : Type) where
  r : K
  g : K
  b : K
  a : K
deriving DecidableEq

/-! ## Camera (`src/render/camera.rs`) -/

/-- `Camera2D` (the `view_projection` GPU matrix is not needed by any
claim). -/
structure Camera2D (K : Type) where
  position : Vec2 K
  zoom : K
  rotation : K
  viewport_size : Vec2 K
deriving DecidableEq

/-- `Camera2D::screen_to_world`. -/
def Camera2D.screen_to_world {K : Type} [LinearOrderedField K]
    (c : Camera2D K) (screen_pos : Vec2 K) : Vec2 K :=
  let normalized : Vec2 K :=
    ⟨(screen_pos.x / c.viewport_size.x) * 2 - 1,
     1 - (screen_pos.y / c.viewport_size.y) * 2⟩
  let half_w := c.viewport_size.x / 2 / c.zoom
  let half_h := c.viewport_size.y / 2 / c.zoom
  ⟨normalized.x * half_w + c.position.x,
   normalized.y * half_h + c.position.y⟩

/-- `Camera2D::world_to_screen`. -/
def Camera2D.world_to_screen {K : Type} [LinearOrderedField K]
    (c : Camera2D K) (world_pos : Vec2 K) : Vec2 K :=
  let half_w := c.viewport_size.x / 2 / c.zoom
  let half_h := c.viewport_size.y / 2 / c.zoom
  let normalized : Vec2 K :=
    ⟨(world_pos.x - c.position.x) / half_w,
     (world_pos.y - c.position.y) / half_h⟩
  ⟨(normalized.x + 1) * (1/2 : K) * c.viewport_size.x,
   (1 - normalized.y) * (1/2 : K) * c.viewport_size.y⟩

/-- C7: for every camera with nonzero viewport and zoom (`screen_to_world`
and `world_to_screen` never read `rotation`, so this covers every
`rotation = 0` camera of the claim) the round trip
`world_to_screen (screen_to_world p)` returns `p` exactly, over exact
arithmetic. -/
theorem camera_round_trip {K : Type} [LinearOrderedField K]
    (c : Camera2D K) (p : Vec2 K)
    (hW : c.viewport_size.x ≠ 0) (hH : c.viewport_size.y ≠ 0)
    (hz : c.zoom ≠ 0) :
    c.world_to_screen (c.screen_to_world p) = p := by
  obtain ⟨px, py⟩ := p
  unfold Camera2D.world_to_screen Camera2D.screen_to_world
  dsimp only
  simp only [Vec2.mk.injEq]
  constructor
  · field_simp
    ring
  · field_simp
    ring

/-- A concrete camera: position (3,4), zoom 2, rotation 0, viewport
1280x720. -/
def camQ : Camera2D ℚ := ⟨⟨3, 4⟩, 2, 0, ⟨1280, 720⟩⟩

/-- C7 witness: the round trip at screen point (5,7) for `camQ`. -/
theorem camera_round_trip_witness :
    camQ.world_to_screen (camQ.screen_to_world ⟨5, 7⟩) = (⟨5, 7⟩ : Vec2 ℚ) :=
  camera_round_trip camQ ⟨5, 7⟩ (by decide) (by decide) (by decide)

/-! ## Input (`src/input/mod.rs`)

`winit::keyboard::KeyCode` is a large external enum; the embedding keeps
the eight keys the code reads plus an opaque constructor for all others.
A `HashSet` is an insert-if-absent / remove / contains list. -/

inductive KeyCode where
  | KeyW | KeyA | KeyS | KeyD
  | ArrowUp | ArrowDown | ArrowLeft | ArrowRight
  | Other (code : Nat)
deriving DecidableEq

inductive MouseButton where
  | Left | Right | Middle
deriving DecidableEq

/-- `HashSet::insert`. -/
def hsInsert {α : Type} [DecidableEq α] (a : α) (l : List α) : List α :=
  if a ∈ l then l else l ++ [a]

/-- `HashSet::remove`. -/
def hsRemove {α : Type} [DecidableEq α] (a : α) (l : List α) : List α :=
  l.filter (fun x => decide (¬ x = a))

/-- `Input`. -/
structure Input (K : Type) where
  keys_down : List KeyCode
  keys_pressed : List KeyCode
  keys_released : List KeyCode
  mouse_buttons_down : List MouseButton
  mouse_buttons_pressed : List MouseButton
  mouse_buttons_released : List MouseButton
  mouse_position : Vec2 K
  mouse_delta : Vec2 K
  scroll_delta : Vec2 K
  prev_mouse_position : Vec2 K
deriving DecidableEq

/-- `Input::new` = `Input::default()`. -/
def Input.new {K : Type} [Zero K] : Input K :=
  ⟨[], [], [], [], [], [], Vec2.ZERO, Vec2.ZERO, Vec2.ZERO, Vec2.ZERO⟩

/-- `Input::begin_frame`. -/
def Input.begin_frame {K : Type} [Zero K] [Sub K] (i : Input K) : Input K :=
  { i with keys_pressed := [], keys_released := [],
           mouse_buttons_pressed := [], mouse_buttons_released := [],
           scroll_delta := Vec2.ZERO,
           mouse_delta := i.mouse_position - i.prev_mouse_position,
           prev_mouse_position := i.mouse_position }

/-- `Input::on_key_pressed`. -/
def Input.on_key_pressed {K : Type} (i : Input K) (key : KeyCode) : Input K :=
  { i with keys_pressed :=
             if key ∈ i.keys_down then i.keys_pressed
             else hsInsert key i.keys_pressed,
           keys_down := hsInsert key i.keys_down }

/-- `Input::on_key_released`. -/
def Input.on_key_released {K : Type} (i : Input K) (key : KeyCode) : Input K :=
  { i with keys_down := hsRemove key i.keys_down,
           keys_released := hsInsert key i.keys_released }

/-- `Input::key_down`. -/
def Input.key_down {K : Type} (i : Input K) (key : KeyCode) : Bool :=
  decide (key ∈ i.keys_down)

/-- `Input::on_mouse_moved`. -/
def Input.on_mouse_moved {K : Type} (i : Input K) (x y : K) : Input K :=
  { i with mouse_position := ⟨x, y⟩ }

/-- `Input::on_scroll` (overwrites, does not accumulate). -/
def Input.on_scroll {K : Type} (i : Input K) (x y : K) : Input K :=
  { i with scroll_delta := ⟨x, y⟩ }

/-- `Input::get_movement_input`. -/
def Input.get_movement_input {K : Type} [LinearOrderedField K]
    (sqrtK : K → K) (i : Input K) : Vec2 K :=
  let dir : Vec2 K := Vec2.ZERO
  let dir : Vec2 K :=
    if i.key_down KeyCode.KeyW || i.key_down KeyCode.ArrowUp then
      { dir with y := dir.y + 1 } else dir
  let dir : Vec2 K :=
    if i.key_down KeyCode.KeyS || i.key_down KeyCode.ArrowDown then
      { dir with y := dir.y - 1 } else dir
  let dir : Vec2 K :=
    if i.key_down KeyCode.KeyA || i.key_down KeyCode.ArrowLeft then
      { dir with x := dir.x - 1 } else dir
  let dir : Vec2 K :=
    if i.key_down KeyCode.KeyD || i.key_down KeyCode.ArrowRight then
      { dir with x := dir.x + 1 } else dir
  if 0 < dir.length_squared then Vec2.normalize sqrtK dir else dir

/-- Normalizing a vector of positive squared length yields a vector of
length one, for any square-root interpretation that is a right inverse of
squaring on nonnegatives and nonnegative there. -/
theorem normalize_unit_length {K : Type} [LinearOrderedField K]
    (sqrtK : K → K)
    (hsq : ∀ x : K, 0 ≤ x → sqrtK x * sqrtK x = x)
    (hnn : ∀ x : K, 0 ≤ x → 0 ≤ sqrtK x)
    (v : Vec2 K) (hv : 0 < v.length_squared) :
    Vec2.length sqrtK (Vec2.normalize sqrtK v) = 1 := by
  obtain ⟨vx, vy⟩ := v
  unfold Vec2.length_squared at hv
  dsimp only at hv
  have hs0 : (0 : K) ≤ vx * vx + vy * vy := le_of_lt hv
  have hlen2 : sqrtK (vx * vx + vy * vy) * sqrtK (vx * vx + vy * vy) =
      vx * vx + vy * vy := hsq _ hs0
  have hlennn : 0 ≤ sqrtK (vx * vx + vy * vy) := hnn _ hs0
  have hlenpos : 0 < sqrtK (vx * vx + vy * vy) := by
    rcases lt_or_eq_of_le hlennn with h | h
    · exact h
    · exfalso
      rw [← h] at hlen2
      simp at hlen2
      rw [← hlen2] at hv
      exact lt_irrefl 0 hv
  unfold Vec2.normalize Vec2.length
  dsimp only
  rw [if_pos hlenpos]
  dsimp only
  have harg : vx / sqrtK (vx * vx + vy * vy) * (vx / sqrtK (vx * vx + vy * vy)) +
      vy / sqrtK (vx * vx + vy * vy) * (vy / sqrtK (vx * vx + vy * vy)) = 1 := by
    rw [div_mul_div_comm, div_mul_div_comm, hlen2, div_add_div_same, div_self (ne_of_gt hv)]
  rw [harg]
  have h1 := hsq 1 (by norm_num)
  have h1nn := hnn 1 (by norm_num)
  rcases mul_self_eq_one_iff.1 h1 with h | h
  · exact h
  · exfalso
    rw [h] at h1nn
    norm_num at h1nn

/-- C6: `get_movement_input` always returns the zero vector or a vector of
length one; with no directional key down it returns the zero vector; with
the vertical pair both held and no horizontal key down the contributions
cancel and it returns exactly the zero vector. -/
theorem get_movement_input_spec {K : Type} [LinearOrderedField K]
    (sqrtK : K → K)
    (hsq : ∀ x : K, 0 ≤ x → sqrtK x * sqrtK x = x)
    (hnn : ∀ x : K, 0 ≤ x → 0 ≤ sqrtK x)
    (i : Input K) :
    (i.get_movement_input sqrtK = Vec2.ZERO ∨
      Vec2.length sqrtK (i.get_movement_input sqrtK) = 1) ∧
    ((i.key_down KeyCode.KeyW || i.key_down KeyCode.ArrowUp) = false →
      (i.key_down KeyCode.KeyS || i.key_down KeyCode.ArrowDown) = false →
      (i.key_down KeyCode.KeyA || i.key_down KeyCode.ArrowLeft) = false →
      (i.key_down KeyCode.KeyD || i.key_down KeyCode.ArrowRight) = false →
      i.get_movement_input sqrtK = Vec2.ZERO) ∧
    ((i.key_down KeyCode.KeyW || i.key_down KeyCode.ArrowUp) = true →
      (i.key_down KeyCode.KeyS || i.key_down KeyCode.ArrowDown) = true →
      (i.key_down KeyCode.KeyA || i.key_down KeyCode.ArrowLeft) = false →
      (i.key_down KeyCode.KeyD || i.key_down KeyCode.ArrowRight) = false →
      i.get_movement_input sqrtK = Vec2.ZERO) := by
  refine ⟨?_, ?_, ?_⟩
  · unfold Input.get_movement_input
    set v : Vec2 K :=
      (let dir : Vec2 K := Vec2.ZERO
       let dir : Vec2 K :=
         if i.key_down KeyCode.KeyW || i.key_down KeyCode.ArrowUp then
           { dir with y := dir.y + 1 } else dir
       let dir : Vec2 K :=
         if i.key_down KeyCode.KeyS || i.key_down KeyCode.ArrowDown then
           { dir with y := dir.y - 1 } else dir
       let dir : Vec2 K :=
         if i.key_down KeyCode.KeyA || i.key_down KeyCode.ArrowLeft then
           { dir with x := dir.x - 1 } else dir
       if i.key_down KeyCode.KeyD || i.key_down KeyCode.ArrowRight then
         { dir with x := dir.x + 1 } else dir) with hv
    by_cases hls : 0 < v.length_squared
    · right
      rw [if_pos hls]
      exact normalize_unit_length sqrtK hsq hnn v hls
    · left
      rw [if_neg hls]
      have hls2 : v.length_squared = v.x * v.x + v.y * v.y := rfl
      have hnneg : (0 : K) ≤ v.length_squared := by
        rw [hls2]
        exact add_nonneg (mul_self_nonneg v.x) (mul_self_nonneg v.y)
      have h0 : v.x * v.x + v.y * v.y = 0 := by
        rw [← hls2]
        exact le_antisymm (not_lt.1 hls) hnneg
      have hx : v.x = 0 :=
        mul_self_eq_zero.1 (le_antisymm
          (by nlinarith [mul_self_nonneg v.x, mul_self_nonneg v.y]) (mul_self_nonneg v.x))
      have hy : v.y = 0 :=
        mul_self_eq_zero.1 (le_antisymm
          (by nlinarith [mul_self_nonneg v.x, mul_self_nonneg v.y]) (mul_self_nonneg v.y))
      show v = Vec2.ZERO
      calc v = ⟨v.x, v.y⟩ := rfl
        _ = ⟨0, 0⟩ := by rw [hx, hy]
        _ = Vec2.ZERO := rfl
  · intro h1 h2 h3 h4
    unfold Input.get_movement_input
    rw [h1, h2, h3, h4]
    norm_num [Vec2.length_squared, Vec2.ZERO]
  · intro h1 h2 h3 h4
    unfold Input.get_movement_input
    rw [h1, h2, h3, h4]
    norm_num [Vec2.length_squared, Vec2.ZERO]

/-- C6 witness: over the reals with the real square root, the W+S input
state produces the zero vector (and, vacuously at this state, the zero-or-
unit disjunction). -/
theorem get_movement_input_spec_witness :
    ((Input.new.on_key_pressed KeyCode.KeyW).on_key_pressed KeyCode.KeyS
        : Input ℝ).get_movement_input Real.sqrt = Vec2.ZERO := by
  have h := get_movement_input_spec Real.sqrt
    (fun x hx => Real.mul_self_sqrt hx)
    (fun x hx => Real.sqrt_nonneg x)
    ((Input.new.on_key_pressed KeyCode.KeyW).on_key_pressed KeyCode.KeyS)
  exact h.2.2 (by decide) (by decide) (by decide) (by decide)

/-- C8: pressing a key that is already down does not mark a just-pressed
edge, whereas releasing a key always marks a just-released edge, whether or
not the key was down. -/
theorem key_edge_asymmetry {K : Type} (i j : Input K) (k : KeyCode)
    (h : k ∈ i.keys_down) :
    (i.on_key_pressed k).keys_pressed = i.keys_pressed ∧
    k ∈ (j.on_key_released k).keys_released := by
  constructor
  · unfold Input.on_key_pressed
    simp [h]
  · unfold Input.on_key_released hsInsert
    dsimp only
    by_cases hj : k ∈ j.keys_released
    · simp [hj]
    · simp [hj]

/-- Key W held down. -/
def inpDown : Input ℚ := { Input.new with keys_down := [KeyCode.KeyW] }

/-- C8 witness: repeated press of the held key W adds nothing to the
just-pressed set, and releasing W on a fresh input (where it was never
down) still marks it just-released. -/
theorem key_edge_asymmetry_witness :
    (inpDown.on_key_pressed KeyCode.KeyW).keys_pressed = inpDown.keys_pressed ∧
    KeyCode.KeyW ∈ ((Input.new : Input ℚ).on_key_released KeyCode.KeyW).keys_released :=
  key_edge_asymmetry inpDown Input.new KeyCode.KeyW (by decide)

/-- C10: `begin_frame` empties exactly the four edge sets, zeroes
`scroll_delta`, derives `mouse_delta` from the previous position and
snapshots it, leaving the level sets and `mouse_position` unchanged; and
`on_scroll` overwrites (so a scroll value survives only until the next
`begin_frame`). -/
theorem begin_frame_effects {K : Type} [Zero K] [Sub K]
    (i : Input K) (x y a b : K) :
    (i.begin_frame).keys_down = i.keys_down ∧
    (i.begin_frame).mouse_buttons_down = i.mouse_buttons_down ∧
    (i.begin_frame).mouse_position = i.mouse_position ∧
    (i.begin_frame).keys_pressed = [] ∧
    (i.begin_frame).keys_released = [] ∧
    (i.begin_frame).mouse_buttons_pressed = [] ∧
    (i.begin_frame).mouse_buttons_released = [] ∧
    (i.begin_frame).scroll_delta = Vec2.ZERO ∧
    (i.begin_frame).mouse_delta = i.mouse_position - i.prev_mouse_position ∧
    (i.begin_frame).prev_mouse_position = i.mouse_position ∧
    ((i.on_scroll a b).on_scroll x y).scroll_delta = ⟨x, y⟩ ∧
    ((i.on_scroll x y).begin_frame).scroll_delta = Vec2.ZERO :=
  ⟨rfl, rfl, rfl, rfl, rfl, rfl, rfl, rfl, rfl, rfl, rfl, rfl⟩

/-! ## Batched 2D renderer (`src/render/renderer2d.rs`)

Only the CPU-side batch state (`vertices`, `quad_count`) is embedded; the
GPU objects (pipelines, buffers, bind groups) receive the batch only at
`flush` and are not read by any claim. -/

/-- `Vertex2D` (`position`/`uv` are `[f32; 2]`, `color` is `[f32; 4]`;
embedded as the isomorphic `Vec2`/`Color` records). -/
structure Vertex2D (K : Type) where
  position : Vec2 K
  uv : Vec2 K
  color : Color K
deriving DecidableEq

/-- `Vertex2D::new`. -/
def Vertex2D.new {K : Type} (pos uv : Vec2 K) (color : Color K) : Vertex2D K :=
  ⟨pos, uv, color⟩

/-- `MAX_QUADS`. -/
def MAX_QUADS : Nat := 10000

/-- The per-frame batch state of `Renderer2D`. -/
structure Renderer2D (K : Type) where
  vertices : List (Vertex2D K)
  quad_count : Nat
deriving DecidableEq

/-- `Renderer2D::begin`: clear the vertex accumulator and the quad counter
(the camera-uniform upload only touches GPU state). -/
def Renderer2D.begin {K : Type} (r : Renderer2D K) : Renderer2D K :=
  { r with vertices := [], quad_count := 0 }

/-- `Renderer2D::draw_quad`: silently drop the call at the cap, otherwise
rotate the four half-size corners, translate by `position`, pair with the
fixed unit-square UVs and append the four vertices. -/
def Renderer2D.draw_quad {K : Type} [LinearOrderedField K]
    (r : Renderer2D K) (sinK cosK : K → K)
    (position size : Vec2 K) (rotation : K) (color : Color K) : Renderer2D K :=
  if MAX_QUADS ≤ r.quad_count then r
  else
    let half : Vec2 K := size * (1/2 : K)
    let sin_r := sinK rotation
    let cos_r := cosK rotation
    let corners : List (Vec2 K) :=
      [⟨-half.x, -half.y⟩, ⟨half.x, -half.y⟩, ⟨half.x, half.y⟩, ⟨-half.x, half.y⟩]
    let uvs : List (Vec2 K) := [⟨0, 1⟩, ⟨1, 1⟩, ⟨1, 0⟩, ⟨0, 0⟩]
    let newVerts := (corners.zip uvs).map (fun cu =>
      let rotated : Vec2 K :=
        ⟨cu.1.x * cos_r - cu.1.y * sin_r, cu.1.x * sin_r + cu.1.y * cos_r⟩
      Vertex2D.new (position + rotated) cu.2 color)
    { r with vertices := r.vertices ++ newVerts,
             quad_count := r.quad_count + 1 }

/-- One recorded `draw_quad` call. -/
structure QuadCmd (K : Type) where
  position : Vec2 K
  size : Vec2 K
  rotation : K
  color : Color K

/-- A sequence of `draw_quad` calls applied in order. -/
def Renderer2D.draw_quads {K : Type} [LinearOrderedField K]
    (r : Renderer2D K) (sinK cosK : K → K) (cmds : List (QuadCmd K)) :
    Renderer2D K :=
  cmds.foldl
    (fun acc cmd => acc.draw_quad sinK cosK cmd.position cmd.size cmd.rotation cmd.color)
    r

theorem draw_quad_of_full {K : Type} [LinearOrderedField K]
    {r : Renderer2D K} (sinK cosK : K → K)
    {position size : Vec2 K} {rotation : K} {color : Color K}
    (h : MAX_QUADS ≤ r.quad_count) :
    r.draw_quad sinK cosK position size rotation color = r := by
  unfold Renderer2D.draw_quad
  rw [if_pos h]

theorem draw_quad_of_lt {K : Type} [LinearOrderedField K]
    {r : Renderer2D K} (sinK cosK : K → K)
    (position size : Vec2 K) (rotation : K) (color : Color K)
    (h : r.quad_count < MAX_QUADS) :
    (r.draw_quad sinK cosK position size rotation color).quad_count =
      r.quad_count + 1 ∧
    (r.draw_quad sinK cosK position size rotation color).vertices.length =
      r.vertices.length + 4 := by
  unfold Renderer2D.draw_quad
  rw [if_neg (by omega)]
  constructor
  · rfl
  · simp

theorem draw_quads_invariant {K : Type} [LinearOrderedField K]
    (sinK cosK : K → K) :
    ∀ (cmds : List (QuadCmd K)) (r : Renderer2D K),
      r.quad_count ≤ MAX_QUADS → r.vertices.length = 4 * r.quad_count →
      (r.draw_quads sinK cosK cmds).quad_count ≤ MAX_QUADS ∧
      (r.draw_quads sinK cosK cmds).vertices.length =
        4 * (r.draw_quads sinK cosK cmds).quad_count := by
  intro cmds
  induction cmds with
  | nil => intro r hc hl; exact ⟨hc, hl⟩
  | cons cmd rest ih =>
    intro r hc hl
    have hstep : r.draw_quads sinK cosK (cmd :: rest) =
        (r.draw_quad sinK cosK cmd.position cmd.size cmd.rotation
          cmd.color).draw_quads sinK cosK rest := rfl
    rw [hstep]
    rcases Nat.lt_or_ge r.quad_count MAX_QUADS with hlt | hge
    · obtain ⟨hc1, hl1⟩ := draw_quad_of_lt sinK cosK
        cmd.position cmd.size cmd.rotation cmd.color hlt
      exact ih _ (by omega) (by rw [hl1, hl, hc1]; ring)
    · rw [draw_quad_of_full sinK cosK hge]
      exact ih r hc hl

theorem draw_quads_replicate_count {K : Type} [LinearOrderedField K]
    (sinK cosK : K → K) (cmd : QuadCmd K) :
    ∀ (n : Nat) (r : Renderer2D K), r.quad_count ≤ MAX_QUADS →
      (r.draw_quads sinK cosK (List.replicate n cmd)).quad_count =
        min (r.quad_count + n) MAX_QUADS := by
  intro n
  induction n with
  | zero =>
    intro r hc
    simp [Renderer2D.draw_quads, Nat.min_eq_left hc]
  | succ n ih =>
    intro r hc
    have hstep : r.draw_quads sinK cosK (List.replicate (n + 1) cmd) =
        (r.draw_quad sinK cosK cmd.position cmd.size cmd.rotation
          cmd.color).draw_quads sinK cosK (List.replicate n cmd) := by
      rw [List.replicate_succ]
      rfl
    rw [hstep]
    rcases Nat.lt_or_ge r.quad_count MAX_QUADS with hlt | hge
    · obtain ⟨hc1, _⟩ := draw_quad_of_lt sinK cosK
        cmd.position cmd.size cmd.rotation cmd.color hlt
      rw [ih _ (by omega), hc1]
      omega
    · rw [draw_quad_of_full sinK cosK hge, ih r hc]
      omega

/-- C4: starting from `begin`, after any sequence of `draw_quad` calls the
batch holds at most `MAX_QUADS` quads and exactly `4 * quad_count`
vertices; and exactly `MAX_QUADS + 1` identical calls leave exactly
`MAX_QUADS` quads and `4 * MAX_QUADS` vertices — the extra call is dropped
whole, with no partial vertex write. -/
theorem draw_quad_cap {K : Type} [LinearOrderedField K]
    (sinK cosK : K → K) (r : Renderer2D K) :
    (∀ cmds : List (QuadCmd K),
      ((r.begin).draw_quads sinK cosK cmds).quad_count ≤ MAX_QUADS ∧
      ((r.begin).draw_quads sinK cosK cmds).vertices.length =
        4 * ((r.begin).draw_quads sinK cosK cmds).quad_count) ∧
    (∀ (position size : Vec2 K) (rotation : K) (color : Color K),
      ((r.begin).draw_quads sinK cosK
          (List.replicate (MAX_QUADS + 1) ⟨position, size, rotation, color⟩)).quad_count =
        MAX_QUADS ∧
      ((r.begin).draw_quads sinK cosK
          (List.replicate (MAX_QUADS + 1) ⟨position, size, rotation, color⟩)).vertices.length =
        4 * MAX_QUADS) := by
  have hb0 : (r.begin).quad_count = 0 := rfl
  have hbl : (r.begin).vertices.length = 4 * (r.begin).quad_count := rfl
  constructor
  · intro cmds
    exact draw_quads_invariant sinK cosK cmds (r.begin) (by rw [hb0]; omega) hbl
  · intro position size rotation color
    have hcount := draw_quads_replicate_count sinK cosK
      ⟨position, size, rotation, color⟩ (MAX_QUADS + 1) (r.begin) (by rw [hb0]; omega)
    rw [hb0] at hcount
    have hmin : min (0 + (MAX_QUADS + 1)) MAX_QUADS = MAX_QUADS := by omega
    rw [hmin] at hcount
    have hinv := draw_quads_invariant sinK cosK
      (List.replicate (MAX_QUADS + 1) ⟨position, size, rotation, color⟩)
      (r.begin) (by rw [hb0]; omega) hbl
    exact ⟨hcount, by rw [hinv.2, hcount]⟩

/-- `Renderer2D::draw_digit_segments`: the 7-segment truth table and one
axis-aligned quad per active segment, in the fixed order A B C D E F G. -/
def Renderer2D.draw_digit_segments {K : Type} [LinearOrderedField K]
    (r : Renderer2D K) (sinK cosK : K → K)
    (pos : Vec2 K) (digit : Nat) (scale : K) (color : Color K) : Renderer2D K :=
  let w := 12 * scale
  let h := 20 * scale
  let t := (5/2 : K) * scale
  let segments : List Bool :=
    match digit with
    | 0 => [true, true, true, true, true, true, false]
    | 1 => [false, true, true, false, false, false, false]
    | 2 => [true, true, false, true, true, false, true]
    | 3 => [true, true, true, true, false, false, true]
    | 4 => [false, true, true, false, false, true, true]
    | 5 => [true, false, true, true, false, true, true]
    | 6 => [true, false, true, true, true, true, true]
    | 7 => [true, true, true, false, false, false, false]
    | 8 => [true, true, true, true, true, true, true]
    | 9 => [true, true, true, true, false, true, true]
    | _ => [false, false, false, false, false, false, false]
  let cx := pos.x + w * (1/2 : K)
  let cy := pos.y
  let r := if segments.getD 0 false then
      r.draw_quad sinK cosK ⟨cx, cy + h * (1/2 : K) - t * (1/2 : K)⟩
        ⟨w - t * 2, t⟩ 0 color
    else r
  let r := if segments.getD 1 false then
      r.draw_quad sinK cosK ⟨cx + w * (1/2 : K) - t * (1/2 : K), cy + h * (1/4 : K)⟩
        ⟨t, h * (1/2 : K) - t⟩ 0 color
    else r
  let r := if segments.getD 2 false then
      r.draw_quad sinK cosK ⟨cx + w * (1/2 : K) - t * (1/2 : K), cy - h * (1/4 : K)⟩
        ⟨t, h * (1/2 : K) - t⟩ 0 color
    else r
  let r := if segments.getD 3 false then
      r.draw_quad sinK cosK ⟨cx, cy - h * (1/2 : K) + t * (1/2 : K)⟩
        ⟨w - t * 2, t⟩ 0 color
    else r
  let r := if segments.getD 4 false then
      r.draw_quad sinK cosK ⟨cx - w * (1/2 : K) + t * (1/2 : K), cy - h * (1/4 : K)⟩
        ⟨t, h * (1/2 : K) - t⟩ 0 color
    else r
  let r := if segments.getD 5 false then
      r.draw_quad sinK cosK ⟨cx - w * (1/2 : K) + t * (1/2 : K), cy + h * (1/4 : K)⟩
        ⟨t, h * (1/2 : K) - t⟩ 0 color
    else r
  let r := if segments.getD 6 false then
      r.draw_quad sinK cosK ⟨cx, cy⟩ ⟨w - t * 2, t⟩ 0 color
    else r
  r

/-- `Renderer2D::draw_number`: format the integer in decimal, then per
character draw a minus bar or a 7-segment digit and advance the x cursor;
returns the drawn width. -/
def Renderer2D.draw_number {K : Type} [LinearOrderedField K]
    (r : Renderer2D K) (sinK cosK : K → K)
    (position : Vec2 K) (number : Int) (scale : K) (color : Color K) :
    Renderer2D K × K :=
  let digit_width := 12 * scale
  let spacing := 2 * scale
  let s := toString number
  let folded := s.toList.foldl (fun acc ch =>
      let rc := acc.1
      let x := acc.2
      let rc :=
        if ch = '-' then
          rc.draw_quad sinK cosK ⟨x + digit_width * (1/2 : K), position.y⟩
            ⟨digit_width * (3/5 : K), 2 * scale⟩ 0 color
        else if ch.isDigit then
          rc.draw_digit_segments sinK cosK ⟨x, position.y⟩ (ch.toNat - 48) scale color
        else rc
      (rc, x + digit_width + spacing)) (r, position.x)
  (folded.1, folded.2 - position.x - spacing)

/-- The four vertices of one axis-aligned (rotation-zero) quad, in
`draw_quad`'s corner order with its fixed unit-square UV assignment; this
is the shape the claim's "one axis-aligned quad" denotes. -/
def axisQuadVerts {K : Type} [LinearOrderedField K]
    (center size : Vec2 K) (color : Color K) : List (Vertex2D K) :=
  [Vertex2D.new ⟨center.x - size.x * (1/2 : K), center.y - size.y * (1/2 : K)⟩ ⟨0, 1⟩ color,
   Vertex2D.new ⟨center.x + size.x * (1/2 : K), center.y - size.y * (1/2 : K)⟩ ⟨1, 1⟩ color,
   Vertex2D.new ⟨center.x + size.x * (1/2 : K), center.y + size.y * (1/2 : K)⟩ ⟨1, 0⟩ color,
   Vertex2D.new ⟨center.x - size.x * (1/2 : K), center.y + size.y * (1/2 : K)⟩ ⟨0, 0⟩ color]

theorem draw_quad_zero_rotation {K : Type} [LinearOrderedField K]
    {r : Renderer2D K} {sinK cosK : K → K}
    (hs : sinK 0 = 0) (hc : cosK 0 = 1)
    (center size : Vec2 K) (color : Color K)
    (hcap : r.quad_count < MAX_QUADS) :
    r.draw_quad sinK cosK center size 0 color =
      ⟨r.vertices ++ axisQuadVerts center size color, r.quad_count + 1⟩ := by
  unfold Renderer2D.draw_quad
  rw [if_neg (by omega)]
  unfold axisQuadVerts Vertex2D.new
  simp only [List.zip, List.zipWith, List.map, hs, hc, Vec2.add_def, Vec2.smul_def]
  refine congrArg₂ _ (congrArg₂ _ rfl ?_) rfl
  simp only [List.cons.injEq, Vertex2D.mk.injEq, Vec2.mk.injEq, eq_self_iff_true,
    true_and, and_true]
  repeat' apply And.intro
  all_goals ring

theorem draw_digit_segments_five {K : Type} [LinearOrderedField K]
    {r : Renderer2D K} {sinK cosK : K → K}
    (hs : sinK 0 = 0) (hc : cosK 0 = 1)
    (pos : Vec2 K) (scale : K) (color : Color K)
    (hcap : r.quad_count + 5 ≤ MAX_QUADS) :
    r.draw_digit_segments sinK cosK pos 5 scale color =
      ⟨r.vertices ++
        axisQuadVerts ⟨pos.x + 12 * scale * (1/2 : K),
            pos.y + 20 * scale * (1/2 : K) - (5/2 : K) * scale * (1/2 : K)⟩
          ⟨12 * scale - (5/2 : K) * scale * 2, (5/2 : K) * scale⟩ color ++
        axisQuadVerts ⟨pos.x + 12 * scale * (1/2 : K) + 12 * scale * (1/2 : K) -
              (5/2 : K) * scale * (1/2 : K), pos.y - 20 * scale * (1/4 : K)⟩
          ⟨(5/2 : K) * scale, 20 * scale * (1/2 : K) - (5/2 : K) * scale⟩ color ++
        axisQuadVerts ⟨pos.x + 12 * scale * (1/2 : K),
            pos.y - 20 * scale * (1/2 : K) + (5/2 : K) * scale * (1/2 : K)⟩
          ⟨12 * scale - (5/2 : K) * scale * 2, (5/2 : K) * scale⟩ color ++
        axisQuadVerts ⟨pos.x + 12 * scale * (1/2 : K) - 12 * scale * (1/2 : K) +
              (5/2 : K) * scale * (1/2 : K), pos.y + 20 * scale * (1/4 : K)⟩
          ⟨(5/2 : K) * scale, 20 * scale * (1/2 : K) - (5/2 : K) * scale⟩ color ++
        axisQuadVerts ⟨pos.x + 12 * scale * (1/2 : K), pos.y⟩
          ⟨12 * scale - (5/2 : K) * scale * 2, (5/2 : K) * scale⟩ color,
       r.quad_count + 5⟩ := by
  unfold Renderer2D.draw_digit_segments
  simp only [List.getD, List.get?_cons_zero, List.get?_cons_succ, Option.getD_some,
    Bool.false_eq_true, eq_self_iff_true, if_true, if_false]
  rw [draw_quad_zero_rotation hs hc
    ⟨pos.x + 12 * scale * (1/2 : K),
      pos.y + 20 * scale * (1/2 : K) - (5/2 : K) * scale * (1/2 : K)⟩ _ _
    (by omega)]
  rw [draw_quad_zero_rotation hs hc
    ⟨pos.x + 12 * scale * (1/2 : K) + 12 * scale * (1/2 : K) -
        (5/2 : K) * scale * (1/2 : K), pos.y - 20 * scale * (1/4 : K)⟩ _ _
    (by show r.quad_count + 1 < MAX_QUADS; omega)]
  rw [draw_quad_zero_rotation hs hc
    ⟨pos.x + 12 * scale * (1/2 : K),
      pos.y - 20 * scale * (1/2 : K) + (5/2 : K) * scale * (1/2 : K)⟩ _ _
    (by show r.quad_count + 1 + 1 < MAX_QUADS; omega)]
  rw [draw_quad_zero_rotation hs hc
    ⟨pos.x + 12 * scale * (1/2 : K) - 12 * scale * (1/2 : K) +
        (5/2 : K) * scale * (1/2 : K), pos.y + 20 * scale * (1/4 : K)⟩ _ _
    (by show r.quad_count + 1 + 1 + 1 < MAX_QUADS; omega)]
  rw [draw_quad_zero_rotation hs hc
    ⟨pos.x + 12 * scale * (1/2 : K), pos.y⟩ _ _
    (by show r.quad_count + 1 + 1 + 1 + 1 < MAX_QUADS; omega)]

/-- C5: `draw_number` at scale 1 on an empty batch for input `-5` appends
first the minus-sign bar (one quad of width `12*0.6`, height `2` centred
`6` right of the cursor) and then exactly digit 5's segment quads — A, C,
D, F, G active, B and E skipped — at the offsets and sizes derived from
the cell width `12`, height `20`, thickness `2.5`; six quads in total. -/
theorem draw_number_minus_five {K : Type} [LinearOrderedField K]
    (sinK cosK : K → K) (hs : sinK 0 = 0) (hc : cosK 0 = 1)
    (p : Vec2 K) (color : Color K) :
    ((⟨[], 0⟩ : Renderer2D K).draw_number sinK cosK p (-5) 1 color).1.vertices =
      axisQuadVerts ⟨p.x + 6, p.y⟩ ⟨36/5, 2⟩ color ++
      axisQuadVerts ⟨p.x + 20, p.y + 35/4⟩ ⟨7, 5/2⟩ color ++
      axisQuadVerts ⟨p.x + 99/4, p.y - 5⟩ ⟨5/2, 15/2⟩ color ++
      axisQuadVerts ⟨p.x + 20, p.y - 35/4⟩ ⟨7, 5/2⟩ color ++
      axisQuadVerts ⟨p.x + 61/4, p.y + 5⟩ ⟨5/2, 15/2⟩ color ++
      axisQuadVerts ⟨p.x + 20, p.y⟩ ⟨7, 5/2⟩ color ∧
    ((⟨[], 0⟩ : Renderer2D K).draw_number sinK cosK p (-5) 1 color).1.quad_count =
      6 := by
  have hchars : (toString (-5 : Int)).toList = ['-', '5'] := by decide
  unfold Renderer2D.draw_number
  dsimp only
  rw [hchars]
  simp only [List.foldl_cons, List.foldl_nil]
  have hne : ('5' = '-') = False := eq_false (by decide)
  have hdig : ('5'.isDigit = true) = True := eq_true (by decide)
  have htn : ('5'.toNat - 48 : Nat) = 5 := by decide
  simp only [if_true, hne, if_false, hdig, htn]
  rw [draw_quad_zero_rotation hs hc _ _ _ (by show (0 : Nat) < MAX_QUADS; decide)]
  rw [draw_digit_segments_five hs hc _ 1 color
    (by show (0 : Nat) + 1 + 5 ≤ MAX_QUADS; decide)]
  dsimp only
  constructor
  · simp only [axisQuadVerts, Vertex2D.new, List.nil_append, List.cons_append]
    simp only [List.cons.injEq, Vertex2D.mk.injEq, Vec2.mk.injEq,
      eq_self_iff_true, true_and, and_true]
    repeat' apply And.intro
    all_goals ring
  · rfl

/-! ## Claim C9 -/

theorem map_id_of_mem {α : Type} {f : α → α} {l : List α}
    (h : ∀ a ∈ l, f a = a) : l.map f = l := by
  rw [List.map_congr_left (g := id) h, List.map_id]

/-- C9: on any world whose storage map has unique type keys (every
`HashMap` does), a miss — `has` false because the component is absent or
the type's storage was never created — makes `get` and `get_mut` return
`None` and `remove` a no-op that leaves the world unchanged; none of them
can panic, having a total result in every case. -/
theorem World.has_eq_of_some {w : World} {t e s : Nat} {st : Storage}
    (hc : alookup t w.components = some st) (he : e = s) :
    w.has t s = storageHas s st := by
  subst he
  unfold World.has
  rw [hc]

theorem World.get_eq_of_some {w : World} {t e : Nat} {st : Storage}
    (hc : alookup t w.components = some st) :
    w.get t e = alookup e st := by
  unfold World.get
  rw [hc]

theorem World.get_mut_eq_of_some {w : World} {t e : Nat} {st : Storage}
    (hc : alookup t w.components = some st) :
    w.get_mut t e = alookup e st := by
  unfold World.get_mut
  rw [hc]

theorem world_miss_is_benign (w : World) (t e : Nat)
    (hkeys : (w.components.map Prod.fst).Nodup) (h : w.has t e = false) :
    w.get t e = none ∧ w.get_mut t e = none ∧ w.remove t e = w := by
  cases hc : alookup t w.components with
  | none =>
    refine ⟨?_, ?_, ?_⟩
    · unfold World.get
      rw [hc]
    · unfold World.get_mut
      rw [hc]
    · unfold World.remove
      rw [hc]
  | some s =>
    rw [World.has_eq_of_some hc rfl] at h
    have hcs : alookup e s = none := by
      unfold storageHas at h
      cases hcs2 : alookup e s with
      | none => rfl
      | some c =>
        rw [hcs2] at h
        simp at h
    refine ⟨?_, ?_, ?_⟩
    · rw [World.get_eq_of_some hc, hcs]
    · rw [World.get_mut_eq_of_some hc, hcs]
    · unfold World.remove
      rw [hc]
      have hmap :
          w.components.map
            (fun p => if p.1 = t then (p.1, storageRemove e p.2) else p) =
          w.components := by
        apply map_id_of_mem
        intro p hp
        by_cases hpt : p.1 = t
        · have hmem : (t, p.2) ∈ w.components := by
            have hpe : p = (t, p.2) := by
              obtain ⟨p1, p2⟩ := p
              simp at hpt
              rw [hpt]
            rw [← hpe]
            exact hp
          have hlook := alookup_of_mem_nodupKeys hkeys hmem
          rw [hc] at hlook
          have hps : p.2 = s := by
            injection hlook with hh
            exact hh.symm
          rw [if_pos hpt, hps, storageRemove_of_absent hcs, ← hps]
        · rw [if_neg hpt]
      rw [hmap]

/-- A world with live entity 0 owning a component of type 3. -/
def wMiss : World := ⟨1, [0], [], [(3, [(0, 5)])]⟩

/-- C9 witness: looking up the never-created type 7 and removing the absent
component of type 3 from entity 1 are benign on `wMiss`. -/
theorem world_miss_is_benign_witness :
    (wMiss.get 7 0 = none ∧ wMiss.remove 7 0 = wMiss) ∧
    (wMiss.get_mut 3 1 = none ∧ wMiss.remove 3 1 = wMiss) := by
  have h7 := world_miss_is_benign wMiss 7 0 (by decide) (by decide)
  have h3 := world_miss_is_benign wMiss 3 1 (by decide) (by decide)
  exact ⟨⟨h7.1, h7.2.2⟩, ⟨h3.2.1, h3.2.2⟩⟩

/-- C5 witness: the constant trig interpretation sin = 0, cos = 1 satisfies
the rotation-zero hypotheses; drawing `-5` at the origin yields exactly six
quads. -/
theorem draw_number_minus_five_witness :
    ((⟨[], 0⟩ : Renderer2D ℚ).draw_number (fun _ => 0) (fun _ => 1)
        ⟨0, 0⟩ (-5) 1 ⟨1, 1, 1, 1⟩).1.quad_count = 6 := by
  have h := draw_number_minus_five (K := ℚ) (fun _ => 0) (fun _ => 1) rfl rfl
    ⟨0, 0⟩ ⟨1, 1, 1, 1⟩
  exact h.2

end GreyEngine
